import Mathlib

/-!
Verification of the StreamCap stream core
(`app/core/platforms/platform_handlers/stream/test.py` and
`app/core/platforms/platform_handlers/stream/MyLiveStream.py`).

The Python code is shallowly embedded: pure string manipulation becomes
functions on `List Char` / `String`, the mutable `last_seq` field of the
watch loop becomes explicit state threading, network fetches become
oracle functions, and `time.sleep` calls become events in an explicit
trace.  Machine integers are `Int` / `Nat` (Python integers are unbounded,
so no modular wrap is needed).  Fallible code returns `Option`.
-/

namespace StreamCap

/-! ## Python string primitives -/

/-- Model of Python single-character `str.split(sep)` on a character list.
The result is always non-empty and concatenating its parts with `sep`
restores the input, exactly as in Python. -/
def pySplit (sep : Char) : List Char → List (List Char)
  | [] => [[]]
  | c :: rest =>
    let r := pySplit sep rest
    if c = sep then [] :: r
    else (c :: r.headD []) :: r.tail

/-- Model of Python `str.strip()`: remove whitespace from both ends. -/
def pyStrip (cs : List Char) : List Char :=
  ((cs.dropWhile Char.isWhitespace).reverse.dropWhile Char.isWhitespace).reverse

/-- Value of a list of decimal digit characters. -/
def digitsToNat (cs : List Char) : Nat :=
  cs.foldl (fun acc c => acc * 10 + (c.toNat - 48)) 0

/-- Model of Python `int(s)` on the strings this repository feeds it:
strip whitespace, allow one leading sign, then require at least one
decimal digit.  Returns `none` where Python `int` raises `ValueError`.
(Underscore digit grouping and non-ASCII digits are not modelled; no
input in this code base uses them.) -/
def pyIntChars (cs0 : List Char) : Option Int :=
  let cs := pyStrip cs0
  match cs with
  | '+' :: rest =>
    if !rest.isEmpty && rest.all Char.isDigit then some ((digitsToNat rest : Int)) else none
  | '-' :: rest =>
    if !rest.isEmpty && rest.all Char.isDigit then some (-(digitsToNat rest : Int)) else none
  | _ =>
    if !cs.isEmpty && cs.all Char.isDigit then some ((digitsToNat cs : Int)) else none

/-- Does `sub` occur as a contiguous run inside `cs`?  Models Python
`sub in s`. -/
def containsSub (cs sub : List Char) : Bool :=
  match cs with
  | [] => sub.isEmpty
  | _ :: rest => sub.isPrefixOf cs || containsSub rest sub

/-- Index of the last occurrence of `sub` in `s`, if any.  Helper for the
model of Python `str.rfind`. -/
def rfindAux (sub : List Char) : List Char → Option Nat
  | [] => if sub.isEmpty then some 0 else none
  | c :: rest =>
    match rfindAux sub rest with
    | some i => some (i + 1)
    | none => if sub.isPrefixOf (c :: rest) then some 0 else none

/-- Model of Python `str.rfind(sub)`: index of the last occurrence, or -1. -/
def pyRfind (s sub : List Char) : Int :=
  match rfindAux sub s with
  | some i => (i : Int)
  | none => -1

/-- Model of Python slicing `s[:i]` with a possibly negative bound:
a negative `i` counts from the end (`s[:-1]` drops the last character). -/
def pySliceTo (cs : List Char) (i : Int) : List Char :=
  if 0 ≤ i then cs.take i.toNat else cs.take (((cs.length : Int) + i).toNat)

/-! ## Segment sequence extraction

Source: `Playlist._parse_segment_seq` in `test.py`:
```
parts = uri.split("-")
if len(parts) > 1:
    return int(parts[1].split(".")[0])   # wrapped in try/except
return -1
```
-/

/-- Embedding of `Playlist._parse_segment_seq`.  The Python `try`/`except`
around the `int` conversion becomes the `Option.getD (-1)`. -/
def parse_segment_seq (uri : String) : Int :=
  match pySplit '-' uri.data with
  | _ :: second :: _ =>
    match pySplit '.' second with
    | tok :: _ => (pyIntChars tok).getD (-1)
    | [] => -1
  | _ => -1

/-! ## URL helpers -/

/-- The scheme part of a URL including the colon, e.g. `"http:"`. -/
def schemeOf (cs : List Char) : List Char :=
  cs.takeWhile (fun c => c ≠ ':') ++ [':']

/-- The scheme and authority of a URL, e.g. `"http://host"`. -/
def schemeHostOf (cs : List Char) : List Char :=
  let afterColon := (cs.dropWhile (fun c => c ≠ ':')).drop 3
  (cs.takeWhile (fun c => c ≠ ':')) ++ [':', '/', '/'] ++
    afterColon.takeWhile (fun c => c ≠ '/')

/-- The directory part of a URL: everything up to and including the last
slash (the whole string when it has no slash). -/
def dirOf (cs : List Char) : List Char :=
  if cs.contains '/' then ((cs.reverse.dropWhile (fun c => c ≠ '/'))).reverse
  else cs

/-- Model of Python `urllib.parse.urljoin(base, url)` restricted to the
URL shapes this repository produces: an already absolute `http`/`https`
URL, a scheme-relative `//…` reference, a host-relative `/…` path, the
empty reference, or a plain relative path (dot-segment normalisation is
not modelled; no manifest in this code base uses dot segments). -/
def urljoin (base url : String) : String :=
  if ("http://".data.isPrefixOf url.data || "https://".data.isPrefixOf url.data) then url
  else if "//".data.isPrefixOf url.data then String.mk (schemeOf base.data ++ url.data)
  else if "/".data.isPrefixOf url.data then String.mk (schemeHostOf base.data ++ url.data)
  else if url.data.isEmpty then base
  else String.mk (dirOf base.data ++ url.data)

/-! ## Master playlist model and `Stream.parse_playlist`

Source: `Stream.parse_playlist` in `test.py`.  The external `m3u8`
library object `M3U8(m3u8_content)` is modelled by `MasterPlaylist`
(the fields `parse_playlist` reads: `is_variant`, `playlists`, each
playlist's `stream_info.resolution`, `stream_info.name` and `uri`);
`none` at the `Option MasterPlaylist` input models the library
constructor raising, which the source's `try`/`except` turns into
`return None`.
-/

/-- The fields of `playlist.stream_info` that `parse_playlist` reads. -/
structure StreamInf where
  resolution : Option (Nat × Nat)
  name : Option String
deriving DecidableEq, Repr

/-- One entry of `master.playlists` as read by `parse_playlist`. -/
structure VariantEntry where
  stream_inf : StreamInf
  uri : String
deriving DecidableEq, Repr

/-- The fields of the parsed `M3U8` master object that
`parse_playlist` reads. -/
structure MasterPlaylist where
  is_variant : Bool
  playlists : List VariantEntry
deriving DecidableEq, Repr

/-- First value stored under key `k`, modelling Python `d[k]` / `d.get(k)`
on a dict embedded as an insertion-ordered association list with
distinct keys. -/
def assocGet {α β : Type} [DecidableEq α] (l : List (α × β)) (k : α) : Option β :=
  match l with
  | [] => none
  | (a, b) :: rest => if a = k then some b else assocGet rest k

/-- Python dict assignment `d[k] = v`: update in place when the key
exists (keeping its insertion position), append otherwise. -/
def assocUpd {α β : Type} [DecidableEq α] (l : List (α × β)) (k : α) (v : β) : List (α × β) :=
  match l with
  | [] => [(k, v)]
  | (a, b) :: rest => if a = k then (a, v) :: rest else (a, b) :: assocUpd rest k v

/-- A `frameRate → uri` bucket, in dict insertion order. -/
abbrev FrBucket := List (Nat × String)

/-- One step of building the `resolutions` dict:
`resolutions.setdefault(width, fresh)["framerate"][fr] = uri`
(the `"width"` field of the Python inner dict is the key itself,
so it is not stored separately). -/
def insertVariant (res : List (Nat × FrBucket)) (w fr : Nat) (uri : String) :
    List (Nat × FrBucket) :=
  match res with
  | [] => [(w, [(fr, uri)])]
  | (w', b) :: rest =>
    if w' = w then (w', assocUpd b fr uri) :: rest
    else (w', b) :: insertVariant rest w fr uri

/-- Frame rate derived for one variant entry:
`fr = 60 if playlist.stream_info.name and "60" in name else 30`. -/
def frOf (e : VariantEntry) : Nat :=
  match e.stream_inf.name with
  | some n => if containsSub n.data "60".data then 60 else 30
  | none => 30

/-- The `resolutions` dict built by the first loop of `parse_playlist`:
entries without a resolution are silently skipped, the width is the
first component of the resolution pair. -/
def buildResolutions (pls : List VariantEntry) : List (Nat × FrBucket) :=
  pls.foldl
    (fun res e =>
      match e.stream_inf.resolution with
      | none => res
      | some wh => insertVariant res wh.1 (frOf e) e.uri)
    []

/-- Python `max(candidates, key=lambda x: x["width"])` over the insertion
order of `candidates` (keeps the earlier element on ties, which cannot
occur here since dict keys are distinct). -/
def maxByWidth (l : List (Nat × FrBucket)) : Option (Nat × FrBucket) :=
  l.foldl
    (fun best r =>
      match best with
      | none => some r
      | some b => if r.1 > b.1 then some r else some b)
    none

/-- Variant selection of `parse_playlist`: exact width match, else the
maximum width strictly below the target, else `none`. -/
def chooseVariant (res : List (Nat × FrBucket)) (target : Nat) :
    Option (Nat × FrBucket) :=
  match assocGet res target with
  | some b => some (target, b)
  | none => maxByWidth (res.filter (fun r => r.1 < target))

/-- `base_url = self.hls_source[:self.hls_source.rfind("playlist.m3u8")]`. -/
def computeBaseUrl (hls_source : String) : String :=
  String.mk (pySliceTo hls_source.data (pyRfind hls_source.data "playlist.m3u8".data))

/-- The fields of the `Playlist` object built by `parse_playlist`
(the `session` argument carries no data and is dropped). -/
structure PlaylistR where
  url : String
  base_url : String
  resolution : Nat
  framerate : Nat
deriving DecidableEq, Repr

/-- Embedding of `Stream.parse_playlist`.  The outer `try`/`except` is
modelled at the two places an exception can occur: the `M3U8`
constructor (the `Option MasterPlaylist` input) and the
`next(iter(...))` on an empty frame-rate bucket (the `[]` fallback
case) — both yield `none`.  The Python truthiness test
`if not playlist_url` makes an empty-string URI fall through to the
first-entry fallback, which the embedding reproduces. -/
def parse_playlist (master : Option MasterPlaylist) (resolution framerate : Nat)
    (hls_source : String) : Option PlaylistR :=
  match master with
  | none => none
  | some m =>
    if !m.is_variant then none
    else
      let res := buildResolutions m.playlists
      match chooseVariant res resolution with
      | none => none
      | some (w, bucket) =>
        let found := assocGet bucket framerate
        let chosen : Option (Nat × String) :=
          match found with
          | some u => if u = "" then bucket.head? else some (framerate, u)
          | none => bucket.head?
        match chosen with
        | none => none
        | some (fr, u) =>
          let base_url := computeBaseUrl hls_source
          some { url := urljoin base_url u, base_url := base_url,
                 resolution := w, framerate := fr }

/-! ## Segment watcher model

Source: `Playlist.watch_segments` in `test.py`.  The infinite
`while True` loop is modelled as the run of finitely many iterations
("cycles").  Per cycle the code fetches and re-parses the media
playlist (oracle: `Cycle.poll`, `none` when the GET,
`raise_for_status` or `M3U8` constructor raises), diffs the segments
against the `last_seq` field (explicit `Int` state), fetches each new
segment with up to three attempts (oracle: `Cycle.fetch`, indexed by
attempt number), and calls the handler.  Every handler call and every
`time.sleep` is recorded as an `Event` so that delivery and back-off
behaviour are observable in the trace.
-/

/-- A media segment as read by the watch loop (`segment.uri`,
`segment.duration`). -/
structure Seg where
  uri : String
  duration : ℚ
deriving DecidableEq, Repr

/-- Observable actions of one run of the watch loop.  `attempt` is one
GET of a segment URL (with its attempt index), `retryWait` the
`time.sleep(0.6)` between failed attempts, `deliver` one call of the
handler (the segment URI is recorded for bookkeeping alongside the
bytes and duration the handler receives), `sleep` the end-of-cycle
`time.sleep` (the poll interval, or 5 after an error). -/
inductive Event where
  | attempt (url : String) (k : Nat)
  | retryWait (secs : ℚ)
  | deliver (uri : String) (bytes : Nat) (duration : ℚ)
  | sleep (secs : ℚ)
deriving DecidableEq, Repr

/-- Fetch oracle for segment GETs: the result of attempt `k` on a URL
(`none` = the GET or `raise_for_status` raises, `some b` = body `b`). -/
abbrev Fetch := String → Nat → Option Nat

/-- Embedding of the `for attempt in range(3)` retry loop, unrolled:
attempt 0; on failure sleep 0.6 and attempt 1; on failure sleep 0.6 and
attempt 2; on a third failure the exception is re-raised (`none`). -/
def fetchRetry (fetch : Fetch) (url : String) : List Event × Option Nat :=
  match fetch url 0 with
  | some b => ([.attempt url 0], some b)
  | none =>
    match fetch url 1 with
    | some b => ([.attempt url 0, .retryWait (3/5), .attempt url 1], some b)
    | none =>
      match fetch url 2 with
      | some b =>
        ([.attempt url 0, .retryWait (3/5), .attempt url 1, .retryWait (3/5),
          .attempt url 2], some b)
      | none =>
        ([.attempt url 0, .retryWait (3/5), .attempt url 1, .retryWait (3/5),
          .attempt url 2], none)

/-- Embedding of the per-cycle `for segment in media_playlist.segments`
loop.  State is `last_seq`; the returned `Bool` is `true` when a
segment's retries were exhausted and the exception aborted the cycle
(the remaining segments are then not processed).  The source's
`if not segment: continue` guard needs no branch: a parsed `Segment`
object is always truthy.  `self.last_seq = seq` happens before the
retry loop, which the embedding keeps (`q` becomes the state even when
every fetch attempt fails). -/
def processSegments (fetch : Fetch) (baseUrl : String) :
    List Seg → Int → List Event × Int × Bool
  | [], s => ([], s, false)
  | seg :: rest, s =>
    let q := parse_segment_seq seg.uri
    if q = -1 ∨ q ≤ s then processSegments fetch baseUrl rest s
    else
      match fetchRetry fetch (urljoin baseUrl seg.uri) with
      | (evs, some b) =>
        let r := processSegments fetch baseUrl rest q
        (evs ++ Event.deliver seg.uri b seg.duration :: r.1, r.2)
      | (evs, none) => (evs, q, true)

/-- The oracles of one iteration of the `while True` loop:
`poll = none` models the playlist GET / `raise_for_status` / `M3U8`
parse raising; otherwise `poll = some segs` is the parsed segment
list.  `fetch` answers the segment GETs of that iteration. -/
structure Cycle where
  poll : Option (List Seg)
  fetch : Fetch

/-- One iteration of the `while True` loop: on success the cycle ends
with `time.sleep(interval)`, on any exception (poll failure or
exhausted segment retries) with the `except` branch's
`time.sleep(5)`. -/
def watchCycle (baseUrl : String) (interval : ℚ) (c : Cycle) (s : Int) :
    List Event × Int :=
  match c.poll with
  | none => ([.sleep 5], s)
  | some segs =>
    match processSegments c.fetch baseUrl segs s with
    | (evs, s', true) => (evs ++ [.sleep 5], s')
    | (evs, s', false) => (evs ++ [.sleep interval], s')

/-- Embedding of `Playlist.watch_segments`, run for finitely many
iterations of the infinite loop.  `last_seq` starts at -1 in
`Playlist.__init__`. -/
def watch_segments (baseUrl : String) (interval : ℚ) :
    List Cycle → Int → List Event × Int
  | [], s => ([], s)
  | c :: cs, s =>
    let r := watchCycle baseUrl interval c s
    let r' := watch_segments baseUrl interval cs r.2
    (r.1 ++ r'.1, r'.2)

/-- Cycle inputs whose playlists grow by list extension: the first cycle
sees `acc ++ D₁`, the next `acc ++ D₁ ++ D₂`, and so on — each cycle's
segment list extends the previous one, and every sequence of
list-extending playlists arises this way. -/
def growingCycles (fetch : Fetch) (acc : List Seg) : List (List Seg) → List Cycle
  | [] => []
  | d :: ds => { poll := some (acc ++ d), fetch := fetch } :: growingCycles fetch (acc ++ d) ds

/-- The URIs of the segments delivered to the handler, in trace order. -/
def deliveredUris (evs : List Event) : List String :=
  evs.filterMap (fun e =>
    match e with
    | .deliver u _ _ => some u
    | _ => none)

/-- The parsable sequence numbers of a segment list, in list order
(entries whose URI yields -1 are dropped). -/
def seqsOf (l : List Seg) : List Int :=
  (l.map (fun g => parse_segment_seq g.uri)).filter (fun q => q ≠ -1)

/-- The segments of a list whose sequence number is parsable. -/
def parsableSegs (l : List Seg) : List Seg :=
  l.filter (fun g => parse_segment_seq g.uri ≠ -1)

/-- The trace produced by one all-new, all-fetches-succeed cycle over a
segment list: one first-attempt GET and one delivery per parsable
segment (used to state the happy-path cycle lemma). -/
def deliverTrace (g : String → Nat) (baseUrl : String) (l : List Seg) : List Event :=
  l.flatMap (fun sg =>
    if parse_segment_seq sg.uri = -1 then []
    else
      [Event.attempt (urljoin baseUrl sg.uri) 0,
       Event.deliver sg.uri (g (urljoin baseUrl sg.uri)) sg.duration])

/-! ## Chaturbate play-URL list

Source: `ChaturbateLiveStream.get_cb_play_url_list` in
`MyLiveStream.py`.  The two network arguments (`proxy`, `headers`) and
the session carry no data used by the logic and are dropped; the GET of
the m3u8 URL is modelled by passing the response text `resp` directly.
-/

/-- Model of `m3u8.rsplit('/', 1)[0] + '/'`. -/
def rsplitBase (m : String) : String :=
  if m.data.contains '/' then
    String.mk (((m.data.reverse.dropWhile (fun c => c ≠ '/')).drop 1).reverse ++ ['/'])
  else String.mk (m.data ++ ['/'])

/-- Model of `re.findall(r'BANDWIDTH=(\d+)', resp)`: every
non-overlapping occurrence of the literal `BANDWIDTH=` followed by at
least one decimal digit, capturing the maximal digit run. -/
def findBandwidths (cs : List Char) : List Nat :=
  match cs with
  | [] => []
  | c :: rest =>
    if "BANDWIDTH=".data.isPrefixOf (c :: rest) then
      let ds := ((c :: rest).drop 10).takeWhile Char.isDigit
      if ds.isEmpty then findBandwidths rest
      else digitsToNat ds :: findBandwidths rest
    else findBandwidths rest
-- Scanning continues one character past a match start instead of past the
-- captured digits; this is extensionally the non-overlapping `findall`,
-- because no later occurrence of the literal `BANDWIDTH=` can begin inside
-- `BANDWIDTH=<digits>` (none of the characters `ANDWIDTH=` nor a decimal
-- digit is `B`).

/-- The `play_url_list` collected by `get_cb_play_url_list`: lines
starting with `chunklist_` prefixed with the base URL; if none, the
stripped lines ending in `m3u8`. -/
def collectUrls (m3u8 resp : String) : List String :=
  let base_url := rsplitBase m3u8
  let lines := pySplit '\n' resp.data
  let pass1 := lines.filterMap (fun l =>
    if "chunklist_".data.isPrefixOf l then some (base_url ++ String.mk (pyStrip l)) else none)
  if pass1.isEmpty then
    lines.filterMap (fun l =>
      let t := pyStrip l
      if "m3u8".data.isSuffixOf t then some (String.mk t) else none)
  else pass1

/-- The `url_to_bandwidth` dict: built from `zip(bandwidth_list,
play_url_list)` purely by position (the zip truncates at the shorter
list; a URL appearing twice keeps its last zipped bandwidth). -/
def urlToBandwidth (m3u8 resp : String) : List (String × Nat) :=
  (List.zip (findBandwidths resp.data) (collectUrls m3u8 resp)).foldl
    (fun d p => assocUpd d p.2 p.1) []

/-- Stable insertion into a descending-by-key list (an earlier element
stays in front of later elements with the same key, as Python's stable
sort guarantees). -/
def insDesc (key : String → Nat) (x : String) : List String → List String
  | [] => [x]
  | y :: ys => if key y ≤ key x then x :: y :: ys else y :: insDesc key x ys

/-- Stable descending sort by key, modelling
`sorted(l, key=..., reverse=True)`. -/
def sortDesc (key : String → Nat) : List String → List String
  | [] => []
  | x :: xs => insDesc key x (sortDesc key xs)

/-- Embedding of `get_cb_play_url_list`.  The sort's key function
`lambda url: url_to_bandwidth[url]` raises `KeyError` when a collected
URL received no bandwidth from the positional zip; the embedding
returns `none` exactly then. -/
def get_cb_play_url_list (m3u8 resp : String) : Option (List String) :=
  let urls := collectUrls m3u8 resp
  let dict := urlToBandwidth m3u8 resp
  if urls.all (fun u => (assocGet dict u).isSome) then
    some (sortDesc (fun u => (assocGet dict u).getD 0) urls)
  else none

/-! ## Lemmas about the string primitives -/

theorem pySplit_of_not_mem {sep : Char} {cs : List Char} (h : sep ∉ cs) :
    pySplit sep cs = [cs] := by
  induction cs with
  | nil => rfl
  | cons c rest ih =>
    have hc : ¬c = sep := fun hc => h (hc ▸ List.mem_cons_self c rest)
    have hr : sep ∉ rest := fun hm => h (List.mem_cons_of_mem c hm)
    simp [pySplit, hc, ih hr]

theorem pySplit_append {sep : Char} {a b : List Char} (h : sep ∉ a) :
    pySplit sep (a ++ sep :: b) = a :: pySplit sep b := by
  induction a with
  | nil => simp [pySplit]
  | cons c a' ih =>
    have hc : ¬c = sep := fun hc => h (hc ▸ List.mem_cons_self c a')
    have ha : sep ∉ a' := fun hm => h (List.mem_cons_of_mem c hm)
    simp [pySplit, hc, ih ha]

theorem pySplit_head (sep : Char) (cs : List Char) :
    ∃ t, pySplit sep cs = cs.takeWhile (fun c => c ≠ sep) :: t := by
  induction cs with
  | nil => exact ⟨[], rfl⟩
  | cons c rest ih =>
    obtain ⟨t, ht⟩ := ih
    by_cases hc : c = sep
    · exact ⟨pySplit sep rest, by simp [pySplit, hc, List.takeWhile_cons]⟩
    · refine ⟨t, ?_⟩
      simp [pySplit, hc, ht, List.takeWhile_cons]

theorem rfindAux_eq_none {sub cs : List Char} (hs : sub ≠ [])
    (h : cs.length < sub.length) : rfindAux sub cs = none := by
  induction cs with
  | nil =>
    have : sub.isEmpty = false := by cases sub with
      | nil => exact absurd rfl hs
      | cons a b => rfl
    simp [rfindAux, this]
  | cons c rest ih =>
    rw [List.length_cons] at h
    have h1 : rest.length < sub.length := by omega
    have hpre : sub.isPrefixOf (c :: rest) = false := by
      cases hb : sub.isPrefixOf (c :: rest) with
      | false => rfl
      | true =>
        exfalso
        have hp := List.isPrefixOf_iff_prefix.mp hb
        have hle := hp.length_le
        rw [List.length_cons] at hle
        omega
    simp [rfindAux, ih h1, hpre]

theorem rfindAux_append_self {sub : List Char} (hs : sub ≠ []) (p : List Char) :
    rfindAux sub (p ++ sub) = some p.length := by
  induction p with
  | nil =>
    obtain ⟨s0, stail, rfl⟩ : ∃ s0 stail, sub = s0 :: stail := by
      cases sub with
      | nil => exact absurd rfl hs
      | cons a b => exact ⟨a, b, rfl⟩
    have hni : rfindAux (s0 :: stail) stail = none :=
      rfindAux_eq_none hs (by simp)
    have hself : (s0 :: stail).isPrefixOf (s0 :: stail) = true :=
      List.isPrefixOf_iff_prefix.mpr (List.prefix_refl _)
    simp [rfindAux, hni, hself]
  | cons c p' ih =>
    simp [rfindAux, ih]

/-- Truncating the source at the last occurrence of `"playlist.m3u8"`
removes exactly that suffix when the source ends with it. -/
theorem computeBaseUrl_append (p : String) :
    computeBaseUrl (p ++ "playlist.m3u8") = p := by
  have hd : (p ++ "playlist.m3u8").data = p.data ++ "playlist.m3u8".data :=
    String.data_append p _
  have hfind : rfindAux "playlist.m3u8".data (p.data ++ "playlist.m3u8".data)
      = some p.data.length := rfindAux_append_self (by decide) p.data
  have htake : (p.data ++ "playlist.m3u8".data).take p.data.length = p.data :=
    List.take_left p.data _
  simp [computeBaseUrl, hd, pyRfind, hfind, pySliceTo, htake]

theorem assocGet_mem {α β : Type} [DecidableEq α] {l : List (α × β)} {k : α} {v : β}
    (h : assocGet l k = some v) : (k, v) ∈ l := by
  induction l with
  | nil => simp [assocGet] at h
  | cons p rest ih =>
    obtain ⟨a, b⟩ := p
    simp only [assocGet] at h
    by_cases hk : a = k
    · rw [if_pos hk] at h
      injection h with h
      subst hk
      subst h
      exact List.mem_cons_self _ _
    · rw [if_neg hk] at h
      exact List.mem_cons_of_mem _ (ih h)

theorem head?_mem {α : Type} {l : List α} {x : α} (h : l.head? = some x) : x ∈ l := by
  cases l with
  | nil => simp at h
  | cons a t =>
    simp at h
    simp [h]

/-- Inversion of a successful `parse_playlist` run: the master was a
variant manifest, a variant bucket was chosen, and the returned record
is built from a frame-rate/URI pair of that bucket with
`urljoin(base_url, uri)` and `base_url = computeBaseUrl src`. -/
theorem parse_playlist_inv {m : MasterPlaylist} {r f : Nat} {src : String}
    {pl : PlaylistR} (h : parse_playlist (some m) r f src = some pl) :
    m.is_variant = true ∧
    ∃ w bucket fr u, chooseVariant (buildResolutions m.playlists) r = some (w, bucket) ∧
      (fr, u) ∈ bucket ∧
      pl = { url := urljoin (computeBaseUrl src) u, base_url := computeBaseUrl src,
             resolution := w, framerate := fr } := by
  simp only [parse_playlist] at h
  split at h
  · simp at h
  · rename_i hnv
    have hv : m.is_variant = true := by
      cases hb : m.is_variant with
      | true => rfl
      | false => rw [hb] at hnv; simp at hnv
    refine ⟨hv, ?_⟩
    split at h
    · simp at h
    · rename_i w bucket hc
      refine ⟨w, bucket, ?_⟩
      split at h
      · simp at h
      · rename_i fr u hch
        simp only [Option.some.injEq] at h
        refine ⟨fr, u, hc, ?_, h.symm⟩
        cases hg : assocGet bucket f with
        | some u' =>
          rw [hg] at hch
          by_cases hu : u' = ""
          · simp only [hu, if_true, if_pos] at hch
            exact head?_mem hch
          · simp only [hu, if_neg, if_false, Option.some.injEq, Prod.mk.injEq] at hch
            rw [← hch.1, ← hch.2]
            exact assocGet_mem hg
        | none =>
          rw [hg] at hch
          simp only [] at hch
          exact head?_mem hch

theorem parse_none_of_choose_none {m : MasterPlaylist} {r : Nat} (f : Nat) (src : String)
    (hc : chooseVariant (buildResolutions m.playlists) r = none) :
    parse_playlist (some m) r f src = none := by
  cases hv : m.is_variant with
  | false => simp [parse_playlist, hv]
  | true => simp [parse_playlist, hv, hc]

theorem maxByWidth_go {l : List (Nat × FrBucket)} :
    ∀ {b p : Nat × FrBucket},
    l.foldl
      (fun best r =>
        match best with
        | none => some r
        | some b' => if r.1 > b'.1 then some r else some b')
      (some b) = some p →
    (p = b ∨ p ∈ l) ∧ b.1 ≤ p.1 ∧ ∀ q ∈ l, q.1 ≤ p.1 := by
  induction l with
  | nil =>
    intro b p h
    simp only [List.foldl_nil, Option.some.injEq] at h
    subst h
    exact ⟨Or.inl rfl, le_refl _, by simp⟩
  | cons r l' ih =>
    intro b p h
    simp only [List.foldl_cons] at h
    by_cases hr : r.1 > b.1
    · rw [if_pos hr] at h
      obtain ⟨hmem, hle, hall⟩ := ih h
      refine ⟨?_, ?_, ?_⟩
      · cases hmem with
        | inl he => exact Or.inr (he ▸ List.mem_cons_self _ _)
        | inr hm => exact Or.inr (List.mem_cons_of_mem _ hm)
      · omega
      · intro q hq
        cases List.mem_cons.mp hq with
        | inl he => rw [he]; exact hle
        | inr hm => exact hall q hm
    · rw [if_neg hr] at h
      obtain ⟨hmem, hle, hall⟩ := ih h
      refine ⟨?_, hle, ?_⟩
      · cases hmem with
        | inl he => exact Or.inl he
        | inr hm => exact Or.inr (List.mem_cons_of_mem _ hm)
      · intro q hq
        cases List.mem_cons.mp hq with
        | inl he => rw [he]; omega
        | inr hm => exact hall q hm

theorem maxByWidth_spec {l : List (Nat × FrBucket)} {p : Nat × FrBucket}
    (h : maxByWidth l = some p) : p ∈ l ∧ ∀ q ∈ l, q.1 ≤ p.1 := by
  cases l with
  | nil => simp [maxByWidth] at h
  | cons r l' =>
    rw [show maxByWidth (r :: l') = l'.foldl
      (fun best x =>
        match best with
        | none => some x
        | some b' => if x.1 > b'.1 then some x else some b')
      (some r) from rfl] at h
    obtain ⟨hmem, _, hall⟩ := maxByWidth_go h
    refine ⟨?_, ?_⟩
    · cases hmem with
      | inl he => exact he ▸ List.mem_cons_self _ _
      | inr hm => exact List.mem_cons_of_mem _ hm
    · intro q hq
      cases List.mem_cons.mp hq with
      | inl he =>
        rw [he]
        exact (maxByWidth_go h).2.1
      | inr hm => exact hall q hm

theorem maxByWidth_isSome {l : List (Nat × FrBucket)} (h : l ≠ []) :
    ∃ p, maxByWidth l = some p := by
  have go : ∀ (l' : List (Nat × FrBucket)) (b : Nat × FrBucket),
      ∃ p, l'.foldl
        (fun best r =>
          match best with
          | none => some r
          | some b' => if r.1 > b'.1 then some r else some b')
        (some b) = some p := by
    intro l'
    induction l' with
    | nil => exact fun b => ⟨b, rfl⟩
    | cons r l'' ih =>
      intro b
      simp only [List.foldl_cons]
      by_cases hr : r.1 > b.1
      · rw [if_pos hr]
        exact ih r
      · rw [if_neg hr]
        exact ih b
  cases l with
  | nil => exact absurd rfl h
  | cons r l' => exact go l' r

theorem assocUpd_ne_nil {α β : Type} [DecidableEq α] (l : List (α × β)) (k : α) (v : β) :
    assocUpd l k v ≠ [] := by
  cases l with
  | nil => simp [assocUpd]
  | cons p rest =>
    obtain ⟨a, b⟩ := p
    simp only [assocUpd]
    by_cases hk : a = k
    · simp [hk]
    · simp [hk]

theorem insertVariant_bucket_ne_nil {res : List (Nat × FrBucket)} {w fr : Nat} {uri : String}
    (hres : ∀ q ∈ res, q.2 ≠ []) :
    ∀ q ∈ insertVariant res w fr uri, q.2 ≠ [] := by
  induction res with
  | nil =>
    intro q hq
    simp only [insertVariant, List.mem_singleton] at hq
    subst hq
    simp
  | cons p rest ih =>
    obtain ⟨w', b⟩ := p
    intro q hq
    simp only [insertVariant] at hq
    by_cases hw : w' = w
    · rw [if_pos hw] at hq
      cases List.mem_cons.mp hq with
      | inl he => rw [he]; exact assocUpd_ne_nil b fr uri
      | inr hm => exact hres q (List.mem_cons_of_mem _ hm)
    · rw [if_neg hw] at hq
      cases List.mem_cons.mp hq with
      | inl he => exact he ▸ hres _ (List.mem_cons_self _ _)
      | inr hm =>
        exact ih (fun x hx => hres x (List.mem_cons_of_mem _ hx)) q hm

theorem buildResolutions_bucket_ne_nil (pls : List VariantEntry) :
    ∀ q ∈ buildResolutions pls, q.2 ≠ [] := by
  have go : ∀ (pls' : List VariantEntry) (res : List (Nat × FrBucket)),
      (∀ q ∈ res, q.2 ≠ []) →
      ∀ q ∈ pls'.foldl
        (fun res e =>
          match e.stream_inf.resolution with
          | none => res
          | some wh => insertVariant res wh.1 (frOf e) e.uri)
        res, q.2 ≠ [] := by
    intro pls'
    induction pls' with
    | nil => intro res hres; exact hres
    | cons e rest ih =>
      intro res hres
      simp only [List.foldl_cons]
      cases he : e.stream_inf.resolution with
      | none => simp only [he]; exact ih res hres
      | some wh =>
        simp only [he]
        exact ih _ (insertVariant_bucket_ne_nil hres)
  exact go pls [] (by simp)

theorem chooseVariant_bucket_ne_nil {pls : List VariantEntry} {r w : Nat} {bucket : FrBucket}
    (hc : chooseVariant (buildResolutions pls) r = some (w, bucket)) : bucket ≠ [] := by
  unfold chooseVariant at hc
  cases hg : assocGet (buildResolutions pls) r with
  | some b =>
    rw [hg] at hc
    simp only [Option.some.injEq, Prod.mk.injEq] at hc
    rw [← hc.2]
    exact buildResolutions_bucket_ne_nil pls (w, b) (hc.1 ▸ assocGet_mem hg)
  | none =>
    rw [hg] at hc
    have hmem := (maxByWidth_spec hc).1
    have := List.mem_filter.mp hmem
    exact buildResolutions_bucket_ne_nil pls (w, bucket) this.1

/-- Forward evaluation of a successful `parse_playlist` run once a
variant bucket has been chosen: some pair of the bucket is selected and
packaged into the returned record. -/
theorem parse_playlist_eq {m : MasterPlaylist} {r : Nat} (f : Nat) (src : String)
    {w : Nat} {bucket : FrBucket} (hv : m.is_variant = true)
    (hc : chooseVariant (buildResolutions m.playlists) r = some (w, bucket))
    (hb : bucket ≠ []) :
    ∃ fr u, (fr, u) ∈ bucket ∧
      parse_playlist (some m) r f src =
        some { url := urljoin (computeBaseUrl src) u, base_url := computeBaseUrl src,
               resolution := w, framerate := fr } := by
  obtain ⟨p0, rest, rfl⟩ : ∃ p0 rest, bucket = p0 :: rest := by
    cases bucket with
    | nil => exact absurd rfl hb
    | cons p0 rest => exact ⟨p0, rest, rfl⟩
  cases hg : assocGet (p0 :: rest) f with
  | some u =>
    by_cases hu : u = ""
    · exact ⟨p0.1, p0.2, List.mem_cons_self _ _,
        by simp [parse_playlist, hv, hc, hg, hu]⟩
    · exact ⟨f, u, assocGet_mem hg,
        by simp [parse_playlist, hv, hc, hg, hu]⟩
  | none =>
    exact ⟨p0.1, p0.2, List.mem_cons_self _ _,
      by simp [parse_playlist, hv, hc, hg]⟩

/-! ## Claim theorems -/

/-- C8: segment sequence extraction maps `"segment-12345.ts"` to 12345;
a URI without a hyphen to -1; `"a-b-c.ts"` to -1; and in general, for a
URI whose first hyphen splits it as `a ++ '-' :: b`, it parses the token
between the first hyphen and the next hyphen, stripped at the first dot
— -1 when that token is non-numeric, the parsed integer otherwise.  The
function is total (`Int`-valued on every string), modelling that
extraction never raises. -/
theorem segment_seq_extraction :
    parse_segment_seq "segment-12345.ts" = 12345 ∧
    (∀ uri : String, '-' ∉ uri.data → parse_segment_seq uri = -1) ∧
    parse_segment_seq "chunk.ts" = -1 ∧
    parse_segment_seq "a-b-c.ts" = -1 ∧
    (∀ (uri : String) (a b : List Char), uri.data = a ++ '-' :: b → '-' ∉ a →
      parse_segment_seq uri =
        (pyIntChars ((b.takeWhile (fun c => c ≠ '-')).takeWhile
          (fun c => c ≠ '.'))).getD (-1)) := by
  refine ⟨by decide, ?_, by decide, by decide, ?_⟩
  · intro uri h
    simp [parse_segment_seq, pySplit_of_not_mem h]
  · intro uri a b hdata ha
    obtain ⟨t, ht⟩ := pySplit_head '-' b
    obtain ⟨t', ht'⟩ := pySplit_head '.' (b.takeWhile (fun c => c ≠ '-'))
    simp only [decide_not] at ht ht'
    simp [parse_segment_seq, hdata, pySplit_append ha, ht, ht']

/-- C6 counterexample: for the source URL `"http://h/a/master.m3u8"` the
resolved playlist's `base_url` is the source minus its last character —
`rfind("playlist.m3u8")` returns -1 and the slice `[:-1]` applies — not
the source with its final path segment removed. -/
theorem base_url_not_final_segment :
    (parse_playlist
      (some { is_variant := true,
              playlists := [{ stream_inf := { resolution := some (1920, 1080), name := none },
                              uri := "v.m3u8" }] })
      1920 30 "http://h/a/master.m3u8").map PlaylistR.base_url
      = some "http://h/a/master.m3u" ∧
    "http://h/a/master.m3u" ≠ "http://h/a/" := by
  refine ⟨by decide, by decide⟩

/-- C6 (amended): the `base_url` of the resolved playlist is the source
URL truncated at the last occurrence of the substring
`"playlist.m3u8"` — which equals the source with its final path segment
removed exactly when the master manifest's filename is
`"playlist.m3u8"`, the only name this code fetches; for other source
URLs the slice `[:rfind(...)]` is `[:-1]` and merely drops the last
character.  The selected variant URI is resolved against that
`base_url` with `urljoin`. -/
theorem base_url_resolution (p src : String) (h : src = p ++ "playlist.m3u8") :
    computeBaseUrl src = p ∧
    ∀ (m : MasterPlaylist) (r f : Nat) (pl : PlaylistR),
      parse_playlist (some m) r f src = some pl →
      pl.base_url = p ∧
      ∃ w bucket fr u,
        chooseVariant (buildResolutions m.playlists) r = some (w, bucket) ∧
        (fr, u) ∈ bucket ∧ pl.url = urljoin p u := by
  subst h
  refine ⟨computeBaseUrl_append p, ?_⟩
  intro m r f pl hp
  obtain ⟨hv, w, bucket, fr, u, hc, hm, hpl⟩ := parse_playlist_inv hp
  subst hpl
  exact ⟨computeBaseUrl_append p, w, bucket, fr, u, hc, hm,
    by rw [computeBaseUrl_append p]⟩

/-- Witness for the amended C6 at a concrete source URL and manifest. -/
theorem base_url_resolution_witness :
    computeBaseUrl "http://h/a/playlist.m3u8" = "http://h/a/" ∧
    PlaylistR.base_url
      { url := "http://h/a/v.m3u8", base_url := "http://h/a/",
        resolution := 1920, framerate := 30 } = "http://h/a/" := by
  have h := base_url_resolution "http://h/a/" "http://h/a/playlist.m3u8" rfl
  refine ⟨h.1, ?_⟩
  exact (h.2
    { is_variant := true,
      playlists := [{ stream_inf := { resolution := some (1920, 1080), name := none },
                      uri := "v.m3u8" }] }
    1920 30
    { url := "http://h/a/v.m3u8", base_url := "http://h/a/",
      resolution := 1920, framerate := 30 }
    (by decide)).1

/-- C9: playlist resolution is total and returns the non-exceptional
`none` in every unavailable case: the master text did not parse (the
`M3U8` constructor raised), the manifest is not a variant manifest, no
variant carries a resolution token, or no acceptable variant exists for
the target.  Totality of `parse_playlist` models that the surrounding
`try`/`except` never lets an exception escape. -/
theorem resolve_unavailable :
    (∀ (r f : Nat) (src : String), parse_playlist none r f src = none) ∧
    (∀ (m : MasterPlaylist) (r f : Nat) (src : String), m.is_variant = false →
      parse_playlist (some m) r f src = none) ∧
    (∀ (m : MasterPlaylist) (r f : Nat) (src : String),
      (∀ e ∈ m.playlists, e.stream_inf.resolution = none) →
      parse_playlist (some m) r f src = none) ∧
    (∀ (m : MasterPlaylist) (r f : Nat) (src : String),
      chooseVariant (buildResolutions m.playlists) r = none →
      parse_playlist (some m) r f src = none) := by
  have key : ∀ (m : MasterPlaylist) (r f : Nat) (src : String),
      chooseVariant (buildResolutions m.playlists) r = none →
      parse_playlist (some m) r f src = none := by
    intro m r f src hc
    cases hv : m.is_variant with
    | false => simp [parse_playlist, hv]
    | true => simp [parse_playlist, hv, hc]
  refine ⟨fun _ _ _ => rfl, ?_, ?_, key⟩
  · intro m r f src hv
    simp [parse_playlist, hv]
  · intro m r f src hres
    have hempty : buildResolutions m.playlists = [] := by
      have : ∀ (pls : List VariantEntry) (res : List (Nat × FrBucket)),
          (∀ e ∈ pls, e.stream_inf.resolution = none) →
          pls.foldl
            (fun res e =>
              match e.stream_inf.resolution with
              | none => res
              | some wh => insertVariant res wh.1 (frOf e) e.uri)
            res = res := by
        intro pls
        induction pls with
        | nil => intro res _; rfl
        | cons e rest ih =>
          intro res hall
          have he : e.stream_inf.resolution = none := hall e (List.mem_cons_self _ _)
          simp only [List.foldl_cons, he]
          exact ih res (fun x hx => hall x (List.mem_cons_of_mem _ hx))
      exact this m.playlists [] hres
    apply key
    rw [hempty]
    rfl

/-- Witness for C9 at concrete unavailable manifests. -/
theorem resolve_unavailable_witness :
    parse_playlist none 1080 30 "http://h/playlist.m3u8" = none ∧
    parse_playlist
      (some { is_variant := false, playlists := [] }) 1080 30 "s" = none ∧
    parse_playlist
      (some { is_variant := true,
              playlists := [{ stream_inf := { resolution := none, name := some "audio" },
                              uri := "a.m3u8" }] }) 1080 30 "s" = none ∧
    parse_playlist
      (some { is_variant := true,
              playlists := [{ stream_inf := { resolution := some (1920, 1080), name := none },
                              uri := "v.m3u8" }] }) 1080 30 "s" = none := by
  refine ⟨resolve_unavailable.1 1080 30 "http://h/playlist.m3u8",
    resolve_unavailable.2.1 _ 1080 30 "s" rfl,
    resolve_unavailable.2.2.1 _ 1080 30 "s" (by decide),
    resolve_unavailable.2.2.2 _ 1080 30 "s" (by decide)⟩

/-- C1: for every variant set and target width, if the target width is a
key of the `resolutions` dict the selected variant comes from that
width's bucket (the returned `resolution` equals the target and the URL
is built from a URI stored under it); otherwise, if some key is strictly
less than the target, the returned `resolution` is the maximum such key;
and if no key is below the target, `parse_playlist` returns `none`. -/
theorem variant_width_selection (m : MasterPlaylist) (r f : Nat) (src : String)
    (hv : m.is_variant = true) :
    (∀ bucket, assocGet (buildResolutions m.playlists) r = some bucket →
      ∃ pl, parse_playlist (some m) r f src = some pl ∧ pl.resolution = r ∧
        ∃ fr u, (fr, u) ∈ bucket ∧ pl.url = urljoin (computeBaseUrl src) u) ∧
    (assocGet (buildResolutions m.playlists) r = none →
      ∀ w' b', (w', b') ∈ buildResolutions m.playlists → w' < r →
      ∃ pl, parse_playlist (some m) r f src = some pl ∧ pl.resolution < r ∧
        (∃ b, (pl.resolution, b) ∈ buildResolutions m.playlists) ∧
        ∀ q ∈ buildResolutions m.playlists, q.1 < r → q.1 ≤ pl.resolution) ∧
    (assocGet (buildResolutions m.playlists) r = none →
      (∀ q ∈ buildResolutions m.playlists, ¬q.1 < r) →
      parse_playlist (some m) r f src = none) := by
  refine ⟨?_, ?_, ?_⟩
  · intro bucket hg
    have hc : chooseVariant (buildResolutions m.playlists) r = some (r, bucket) := by
      simp [chooseVariant, hg]
    obtain ⟨fr, u, hm, heq⟩ :=
      parse_playlist_eq f src hv hc (chooseVariant_bucket_ne_nil hc)
    exact ⟨_, heq, rfl, fr, u, hm, rfl⟩
  · intro hg w' b' hmem hlt
    have hfil : (w', b') ∈ (buildResolutions m.playlists).filter (fun x => x.1 < r) :=
      List.mem_filter.mpr ⟨hmem, by simpa using hlt⟩
    obtain ⟨p, hp⟩ := maxByWidth_isSome (List.ne_nil_of_mem hfil)
    obtain ⟨w, bucket⟩ := p
    have hc : chooseVariant (buildResolutions m.playlists) r = some (w, bucket) := by
      simp [chooseVariant, hg, hp]
    obtain ⟨hpmem, hpall⟩ := maxByWidth_spec hp
    have hw := List.mem_filter.mp hpmem
    obtain ⟨fr, u, hm, heq⟩ :=
      parse_playlist_eq f src hv hc (chooseVariant_bucket_ne_nil hc)
    refine ⟨_, heq, by simpa using hw.2, ⟨bucket, hw.1⟩, ?_⟩
    intro q hq hqlt
    exact hpall q (List.mem_filter.mpr ⟨hq, by simpa using hqlt⟩)
  · intro hg hnone
    apply parse_none_of_choose_none
    have hfil : (buildResolutions m.playlists).filter (fun x => x.1 < r) = [] := by
      rw [List.filter_eq_nil_iff]
      intro q hq
      simpa using hnone q hq
    simp [chooseVariant, hg, hfil, maxByWidth]

/-- Witness for C1: exact width match, fallback to the largest lower
width, and no lower width, on concrete variant sets. -/
theorem variant_width_selection_witness :
    (∃ pl, parse_playlist
      (some { is_variant := true,
              playlists := [{ stream_inf := { resolution := some (1080, 607), name := none },
                              uri := "a.m3u8" },
                            { stream_inf := { resolution := some (720, 404), name := none },
                              uri := "b.m3u8" }] })
      1080 30 "http://h/playlist.m3u8" = some pl ∧ pl.resolution = 1080) ∧
    (∃ pl, parse_playlist
      (some { is_variant := true,
              playlists := [{ stream_inf := { resolution := some (1920, 1080), name := none },
                              uri := "a.m3u8" },
                            { stream_inf := { resolution := some (1280, 720), name := none },
                              uri := "b.m3u8" },
                            { stream_inf := { resolution := some (640, 360), name := none },
                              uri := "c.m3u8" }] })
      1080 30 "http://h/playlist.m3u8" = some pl ∧ pl.resolution < 1080 ∧
      640 ≤ pl.resolution) ∧
    parse_playlist
      (some { is_variant := true,
              playlists := [{ stream_inf := { resolution := some (1920, 1080), name := none },
                              uri := "a.m3u8" }] })
      1080 30 "http://h/playlist.m3u8" = none := by
  refine ⟨?_, ?_, ?_⟩
  · obtain ⟨pl, h1, h2, _⟩ :=
      (variant_width_selection
        { is_variant := true,
          playlists := [{ stream_inf := { resolution := some (1080, 607), name := none },
                          uri := "a.m3u8" },
                        { stream_inf := { resolution := some (720, 404), name := none },
                          uri := "b.m3u8" }] }
        1080 30 "http://h/playlist.m3u8" rfl).1
        [(30, "a.m3u8")] (by decide)
    exact ⟨pl, h1, h2⟩
  · obtain ⟨pl, h1, h2, _, hmax⟩ :=
      (variant_width_selection
        { is_variant := true,
          playlists := [{ stream_inf := { resolution := some (1920, 1080), name := none },
                          uri := "a.m3u8" },
                        { stream_inf := { resolution := some (1280, 720), name := none },
                          uri := "b.m3u8" },
                        { stream_inf := { resolution := some (640, 360), name := none },
                          uri := "c.m3u8" }] }
        1080 30 "http://h/playlist.m3u8" rfl).2.1
        (by decide) 640 [(30, "c.m3u8")] (by decide) (by decide)
    exact ⟨pl, h1, h2, hmax (640, [(30, "c.m3u8")]) (by decide) (by decide)⟩
  · exact (variant_width_selection
      { is_variant := true,
        playlists := [{ stream_inf := { resolution := some (1920, 1080), name := none },
                        uri := "a.m3u8" }] }
      1080 30 "http://h/playlist.m3u8" rfl).2.2
      (by decide) (by decide)

/-- C7: within the chosen width bucket (whose URIs are non-empty
strings, as every URI line the m3u8 parser stores is), if the target
frame rate is present as a key the returned playlist carries exactly
that frame rate and the URI stored under it; otherwise the returned
pair is the bucket's first-inserted entry (`next(iter(...))` on the
insertion-ordered dict, i.e. the head of the bucket).  As a pure
function of its inputs the choice is identical across runs. -/
theorem framerate_selection (m : MasterPlaylist) (r f : Nat) (src : String)
    (w : Nat) (bucket : FrBucket)
    (hv : m.is_variant = true)
    (hc : chooseVariant (buildResolutions m.playlists) r = some (w, bucket))
    (hne : ∀ q ∈ bucket, q.2 ≠ "") :
    (∀ u, assocGet bucket f = some u →
      parse_playlist (some m) r f src =
        some { url := urljoin (computeBaseUrl src) u, base_url := computeBaseUrl src,
               resolution := w, framerate := f }) ∧
    (assocGet bucket f = none →
      ∀ fr0 u0 rest, bucket = (fr0, u0) :: rest →
        parse_playlist (some m) r f src =
          some { url := urljoin (computeBaseUrl src) u0, base_url := computeBaseUrl src,
                 resolution := w, framerate := fr0 }) := by
  constructor
  · intro u hg
    have hu : u ≠ "" := hne (f, u) (assocGet_mem hg)
    simp [parse_playlist, hv, hc, hg, hu]
  · intro hg fr0 u0 rest hb
    subst hb
    simp [parse_playlist, hv, hc, hg]

/-- Witness for C7: exact frame-rate hit and first-entry fallback on a
concrete bucket. -/
theorem framerate_selection_witness :
    parse_playlist
      (some { is_variant := true,
              playlists := [{ stream_inf := { resolution := some (1920, 1080),
                                              name := some "1080p60" },
                              uri := "v60.m3u8" },
                            { stream_inf := { resolution := some (1920, 1080),
                                              name := some "1080p" },
                              uri := "v30.m3u8" }] })
      1920 30 "http://h/playlist.m3u8" =
      some { url := "http://h/v30.m3u8", base_url := "http://h/",
             resolution := 1920, framerate := 30 } ∧
    parse_playlist
      (some { is_variant := true,
              playlists := [{ stream_inf := { resolution := some (1920, 1080),
                                              name := some "1080p60" },
                              uri := "v60.m3u8" }] })
      1920 30 "http://h/playlist.m3u8" =
      some { url := "http://h/v60.m3u8", base_url := "http://h/",
             resolution := 1920, framerate := 60 } := by
  constructor
  · have h := (framerate_selection
      { is_variant := true,
        playlists := [{ stream_inf := { resolution := some (1920, 1080),
                                        name := some "1080p60" },
                        uri := "v60.m3u8" },
                      { stream_inf := { resolution := some (1920, 1080),
                                        name := some "1080p" },
                        uri := "v30.m3u8" }] }
      1920 30 "http://h/playlist.m3u8" 1920 [(60, "v60.m3u8"), (30, "v30.m3u8")]
      rfl (by decide) (by decide)).1 "v30.m3u8" (by decide)
    exact h.trans (by decide)
  · have h := (framerate_selection
      { is_variant := true,
        playlists := [{ stream_inf := { resolution := some (1920, 1080),
                                        name := some "1080p60" },
                        uri := "v60.m3u8" }] }
      1920 30 "http://h/playlist.m3u8" 1920 [(60, "v60.m3u8")]
      rfl (by decide) (by decide)).2 (by decide) 60 "v60.m3u8" [] rfl
    exact h.trans (by decide)

theorem assocGet_assocUpd_isSome {α β : Type} [DecidableEq α]
    (d : List (α × β)) (k u : α) (v : β) :
    (assocGet (assocUpd d k v) u).isSome = true ↔
      u = k ∨ (assocGet d u).isSome = true := by
  induction d with
  | nil =>
    simp only [assocUpd, assocGet]
    by_cases hk : k = u
    · subst hk
      simp
    · rw [if_neg hk]
      constructor
      · intro h
        simp at h
      · rintro (h | h)
        · exact absurd h.symm hk
        · simp at h
  | cons p rest ih =>
    obtain ⟨a, b⟩ := p
    by_cases hak : a = k
    · have hupd : assocUpd ((a, b) :: rest) k v = (a, v) :: rest := by
        simp [assocUpd, hak]
      rw [hupd]
      simp only [assocGet]
      by_cases hau : a = u
      · rw [if_pos hau, if_pos hau]
        have huk : u = k := by rw [← hau]; exact hak
        simp [huk]
      · rw [if_neg hau, if_neg hau]
        constructor
        · intro h
          exact Or.inr h
        · rintro (h | h)
          · exact absurd (hak.trans h.symm) hau
          · exact h
    · have hupd : assocUpd ((a, b) :: rest) k v = (a, b) :: assocUpd rest k v := by
        simp [assocUpd, hak]
      rw [hupd]
      simp only [assocGet]
      by_cases hau : a = u
      · rw [if_pos hau, if_pos hau]
        simp
      · rw [if_neg hau, if_neg hau]
        exact ih

theorem zip_dict_keys {α β : Type} [DecidableEq α] :
    ∀ (ps : List (β × α)) (d : List (α × β)) (u : α),
    (assocGet (ps.foldl (fun d p => assocUpd d p.2 p.1) d) u).isSome = true ↔
      ((assocGet d u).isSome = true ∨ u ∈ ps.map Prod.snd) := by
  intro ps
  induction ps with
  | nil => simp
  | cons p ps' ih =>
    intro d u
    simp only [List.foldl_cons, List.map_cons, List.mem_cons]
    rw [ih]
    rw [assocGet_assocUpd_isSome]
    constructor
    · rintro (h | h)
      · rcases h with h | h
        · exact Or.inr (Or.inl h)
        · exact Or.inl h
      · exact Or.inr (Or.inr h)
    · rintro (h | h | h)
      · exact Or.inl (Or.inr h)
      · exact Or.inl (Or.inl h)
      · exact Or.inr h

/-- C10: `get_cb_play_url_list` pairs bandwidths and collected URLs
purely by position via `zip`; a response with fewer `BANDWIDTH=`
attributes than collected playlist URLs makes the sort's key lookup
raise `KeyError` (the embedding's `none`), and the function returns a
list exactly when every collected URL receives a bandwidth from the
positional zip. -/
theorem cb_bandwidth_zip :
    get_cb_play_url_list "http://cb/x/playlist.m3u8"
      "#EXT-X-STREAM-INF:BANDWIDTH=100\nchunklist_a.m3u8\nchunklist_b.m3u8" = none ∧
    ∀ m3u8 resp : String,
      (get_cb_play_url_list m3u8 resp).isSome = true ↔
      ∀ u ∈ collectUrls m3u8 resp,
        u ∈ (List.zip (findBandwidths resp.data) (collectUrls m3u8 resp)).map Prod.snd := by
  constructor
  · decide
  · intro m resp
    have h1 : (get_cb_play_url_list m resp).isSome =
        ((collectUrls m resp).all
          (fun u => (assocGet (urlToBandwidth m resp) u).isSome)) := by
      unfold get_cb_play_url_list
      by_cases hall : (collectUrls m resp).all
          (fun u => (assocGet (urlToBandwidth m resp) u).isSome) = true
      · rw [if_pos hall, hall]
        rfl
      · rw [if_neg hall]
        simp only [Option.isSome_none]
        exact (Bool.eq_false_iff.mpr hall).symm
    rw [h1, List.all_eq_true]
    constructor
    · intro h u hu
      have := h u hu
      rw [show urlToBandwidth m resp =
        (List.zip (findBandwidths resp.data) (collectUrls m resp)).foldl
          (fun d p => assocUpd d p.2 p.1) [] from rfl] at this
      rcases (zip_dict_keys _ [] u).mp this with hc | hc
      · simp [assocGet] at hc
      · exact hc
    · intro h u hu
      rw [show urlToBandwidth m resp =
        (List.zip (findBandwidths resp.data) (collectUrls m resp)).foldl
          (fun d p => assocUpd d p.2 p.1) [] from rfl]
      exact (zip_dict_keys _ [] u).mpr (Or.inr (h u hu))

/-- Witness for C10: a response whose two variants both carry a
bandwidth is sorted and returned. -/
theorem cb_bandwidth_zip_witness :
    (get_cb_play_url_list "http://cb/x/playlist.m3u8"
      "#EXT-X-STREAM-INF:BANDWIDTH=100\nchunklist_a.m3u8\n#EXT-X-STREAM-INF:BANDWIDTH=300\nchunklist_b.m3u8").isSome
      = true := by
  exact (cb_bandwidth_zip.2 "http://cb/x/playlist.m3u8"
    "#EXT-X-STREAM-INF:BANDWIDTH=100\nchunklist_a.m3u8\n#EXT-X-STREAM-INF:BANDWIDTH=300\nchunklist_b.m3u8").mpr
    (by decide)

/-- C3: in every iteration of the watch loop, a segment whose extracted
sequence number is -1 or at most the current `last_seq` is never
fetched and never delivered (the trace of the cycle is exactly the
trace without that segment); and an accepted segment updates
`last_seq` to its sequence number before the first fetch attempt — even
when every fetch attempt fails and nothing is delivered, the final
state carries the new sequence number. -/
theorem diff_skip_and_eager_update :
    (∀ (fetch : Fetch) (base : String) (seg : Seg) (rest : List Seg) (s : Int),
      (parse_segment_seq seg.uri = -1 ∨ parse_segment_seq seg.uri ≤ s) →
      processSegments fetch base (seg :: rest) s = processSegments fetch base rest s) ∧
    (∀ (fetch : Fetch) (base : String) (seg : Seg) (rest : List Seg) (s : Int),
      parse_segment_seq seg.uri ≠ -1 → s < parse_segment_seq seg.uri →
      (∀ k, fetch (urljoin base seg.uri) k = none) →
      processSegments fetch base (seg :: rest) s =
        ([.attempt (urljoin base seg.uri) 0, .retryWait (3/5),
          .attempt (urljoin base seg.uri) 1, .retryWait (3/5),
          .attempt (urljoin base seg.uri) 2],
         parse_segment_seq seg.uri, true)) := by
  constructor
  · intro fetch base seg rest s h
    simp only [processSegments]
    rw [if_pos h]
  · intro fetch base seg rest s h1 h2 hf
    have hcond : ¬(parse_segment_seq seg.uri = -1 ∨ parse_segment_seq seg.uri ≤ s) := by
      rintro (hc | hc)
      · exact h1 hc
      · omega
    have hfr : fetchRetry fetch (urljoin base seg.uri) =
        ([.attempt (urljoin base seg.uri) 0, .retryWait (3/5),
          .attempt (urljoin base seg.uri) 1, .retryWait (3/5),
          .attempt (urljoin base seg.uri) 2], none) := by
      simp [fetchRetry, hf]
    simp only [processSegments]
    rw [if_neg hcond, hfr]

/-- Witness for C3 at concrete segments and a concrete failing fetch. -/
theorem diff_skip_and_eager_update_witness :
    processSegments (fun _ _ => none) "http://h/" [⟨"chunk.ts", 2⟩] (-1) =
      processSegments (fun _ _ => none) "http://h/" [] (-1) ∧
    processSegments (fun _ _ => none) "http://h/" [⟨"segment-7.ts", 2⟩] (-1) =
      ([.attempt "http://h/segment-7.ts" 0, .retryWait (3/5),
        .attempt "http://h/segment-7.ts" 1, .retryWait (3/5),
        .attempt "http://h/segment-7.ts" 2], 7, true) := by
  constructor
  · exact diff_skip_and_eager_update.1 (fun _ _ => none) "http://h/"
      ⟨"chunk.ts", 2⟩ [] (-1) (by decide)
  · have h := diff_skip_and_eager_update.2 (fun _ _ => none) "http://h/"
      ⟨"segment-7.ts", 2⟩ [] (-1) (by decide) (by decide) (fun _ => rfl)
    rw [h]
    have hu : urljoin "http://h/" "segment-7.ts" = "http://h/segment-7.ts" := by decide
    have hq : parse_segment_seq "segment-7.ts" = 7 := by decide
    simp only [hu, hq]

/-- C4: for a new segment the watcher makes at most three fetch
attempts with a fixed 0.6-second (`3/5`) wait between attempts; a
success ends the attempts and the handler is invoked exactly once with
the fetched bytes and the segment's duration (the retry trace itself
contains no delivery); when all three attempts fail the exception
aborts the current poll cycle — the remaining segments are not
processed — and triggers the outer 5-second back-off, after which the
loop continues with the next cycle. -/
theorem segment_retry_delivery :
    (∀ (fetch : Fetch) (url : String) (b : Nat), fetch url 0 = some b →
      fetchRetry fetch url = ([.attempt url 0], some b)) ∧
    (∀ (fetch : Fetch) (url : String) (b : Nat), fetch url 0 = none →
      fetch url 1 = some b →
      fetchRetry fetch url =
        ([.attempt url 0, .retryWait (3/5), .attempt url 1], some b)) ∧
    (∀ (fetch : Fetch) (url : String) (b : Nat), fetch url 0 = none →
      fetch url 1 = none → fetch url 2 = some b →
      fetchRetry fetch url =
        ([.attempt url 0, .retryWait (3/5), .attempt url 1, .retryWait (3/5),
          .attempt url 2], some b)) ∧
    (∀ (fetch : Fetch) (url : String), fetch url 0 = none → fetch url 1 = none →
      fetch url 2 = none →
      fetchRetry fetch url =
        ([.attempt url 0, .retryWait (3/5), .attempt url 1, .retryWait (3/5),
          .attempt url 2], none)) ∧
    (∀ (fetch : Fetch) (url : String), deliveredUris (fetchRetry fetch url).1 = []) ∧
    (∀ (fetch : Fetch) (base : String) (seg : Seg) (rest : List Seg) (s : Int)
       (evs : List Event) (b : Nat),
      parse_segment_seq seg.uri ≠ -1 → s < parse_segment_seq seg.uri →
      fetchRetry fetch (urljoin base seg.uri) = (evs, some b) →
      processSegments fetch base (seg :: rest) s =
        (evs ++ Event.deliver seg.uri b seg.duration ::
          (processSegments fetch base rest (parse_segment_seq seg.uri)).1,
         (processSegments fetch base rest (parse_segment_seq seg.uri)).2)) ∧
    (∀ (base : String) (interval : ℚ) (fetch : Fetch) (seg : Seg) (rest : List Seg)
       (cs : List Cycle) (s : Int),
      parse_segment_seq seg.uri ≠ -1 → s < parse_segment_seq seg.uri →
      (∀ k, fetch (urljoin base seg.uri) k = none) →
      watch_segments base interval
        ({ poll := some (seg :: rest), fetch := fetch } :: cs) s =
        ([.attempt (urljoin base seg.uri) 0, .retryWait (3/5),
          .attempt (urljoin base seg.uri) 1, .retryWait (3/5),
          .attempt (urljoin base seg.uri) 2, .sleep 5]
          ++ (watch_segments base interval cs (parse_segment_seq seg.uri)).1,
         (watch_segments base interval cs (parse_segment_seq seg.uri)).2)) := by
  have hnoDeliver : ∀ (fetch : Fetch) (url : String),
      deliveredUris (fetchRetry fetch url).1 = [] := by
    intro fetch url
    unfold fetchRetry
    cases fetch url 0 with
    | some b => simp [deliveredUris]
    | none =>
      cases fetch url 1 with
      | some b => simp [deliveredUris]
      | none =>
        cases fetch url 2 with
        | some b => simp [deliveredUris]
        | none => simp [deliveredUris]
  refine ⟨?_, ?_, ?_, ?_, hnoDeliver, ?_, ?_⟩
  · intro fetch url b h0
    simp [fetchRetry, h0]
  · intro fetch url b h0 h1
    simp [fetchRetry, h0, h1]
  · intro fetch url b h0 h1 h2
    simp [fetchRetry, h0, h1, h2]
  · intro fetch url h0 h1 h2
    simp [fetchRetry, h0, h1, h2]
  · intro fetch base seg rest s evs b h1 h2 hfr
    have hcond : ¬(parse_segment_seq seg.uri = -1 ∨ parse_segment_seq seg.uri ≤ s) := by
      rintro (hc | hc)
      · exact h1 hc
      · omega
    simp only [processSegments]
    rw [if_neg hcond, hfr]
  · intro base interval fetch seg rest cs s h1 h2 hf
    have hcond : ¬(parse_segment_seq seg.uri = -1 ∨ parse_segment_seq seg.uri ≤ s) := by
      rintro (hc | hc)
      · exact h1 hc
      · omega
    have hfr : fetchRetry fetch (urljoin base seg.uri) =
        ([.attempt (urljoin base seg.uri) 0, .retryWait (3/5),
          .attempt (urljoin base seg.uri) 1, .retryWait (3/5),
          .attempt (urljoin base seg.uri) 2], none) := by
      simp [fetchRetry, hf]
    have hps : processSegments fetch base (seg :: rest) s =
        ([.attempt (urljoin base seg.uri) 0, .retryWait (3/5),
          .attempt (urljoin base seg.uri) 1, .retryWait (3/5),
          .attempt (urljoin base seg.uri) 2],
         parse_segment_seq seg.uri, true) := by
      simp only [processSegments]
      rw [if_neg hcond, hfr]
    simp only [watch_segments, watchCycle, hps]
    simp

/-- Witness for C4: success on the third attempt delivers exactly once
after two retry waits; total failure aborts the cycle, sleeps 5 and the
loop proceeds to the next cycle. -/
theorem segment_retry_delivery_witness :
    fetchRetry (fun _ k => if k = 2 then some 9 else none) "u" =
      ([.attempt "u" 0, .retryWait (3/5), .attempt "u" 1, .retryWait (3/5),
        .attempt "u" 2], some 9) ∧
    deliveredUris (fetchRetry (fun _ k => if k = 2 then some 9 else none) "u").1 = [] ∧
    watch_segments "http://h/" 1
      ({ poll := some [⟨"segment-3.ts", 2⟩, ⟨"segment-4.ts", 2⟩],
         fetch := fun _ _ => none } ::
       [{ poll := none, fetch := fun _ _ => none }]) (-1) =
      ([.attempt "http://h/segment-3.ts" 0, .retryWait (3/5),
        .attempt "http://h/segment-3.ts" 1, .retryWait (3/5),
        .attempt "http://h/segment-3.ts" 2, .sleep 5, .sleep 5], 3) := by
  refine ⟨?_, ?_, ?_⟩
  · exact segment_retry_delivery.2.2.1 (fun _ k => if k = 2 then some 9 else none)
      "u" 9 rfl rfl rfl
  · exact segment_retry_delivery.2.2.2.2.1 (fun _ k => if k = 2 then some 9 else none) "u"
  · have h := segment_retry_delivery.2.2.2.2.2.2 "http://h/" 1 (fun _ _ => none)
      ⟨"segment-3.ts", 2⟩ [⟨"segment-4.ts", 2⟩]
      [{ poll := none, fetch := fun _ _ => none }] (-1)
      (by decide) (by decide) (fun _ => rfl)
    rw [h]
    have hu : urljoin "http://h/" "segment-3.ts" = "http://h/segment-3.ts" := by decide
    have hq : parse_segment_seq "segment-3.ts" = 3 := by decide
    simp only [hu, hq, watch_segments, watchCycle]
    simp

/-- C5 counterexample: a failing poll cycle with poll interval 2 sleeps
5 seconds, not 5 × 2 = 10 — the back-off is the literal
`time.sleep(5)`, not five times the poll interval. -/
theorem backoff_not_five_times_interval :
    watchCycle "b" 2 { poll := none, fetch := fun _ _ => none } (-1) =
      ([.sleep 5], -1) ∧
    (5 : ℚ) ≠ 5 * 2 := by
  refine ⟨rfl, by norm_num⟩

/-- C5 (amended): when any poll cycle fails (transport or parse failure
of the poll, or escalated segment-delivery exhaustion) the loop does
not terminate: it sleeps a fixed back-off of 5 seconds — which equals
5 times the poll interval only at the default interval of 1.0 s — and
then resumes with the next poll cycle. -/
theorem backoff_resume (base : String) (interval : ℚ) (cs : List Cycle) (s : Int) :
    (∀ fetch, watch_segments base interval ({ poll := none, fetch := fetch } :: cs) s =
      (Event.sleep 5 :: (watch_segments base interval cs s).1,
       (watch_segments base interval cs s).2)) ∧
    (∀ (c : Cycle) (segs : List Seg), c.poll = some segs →
      ∀ (evs : List Event) (s' : Int),
        processSegments c.fetch base segs s = (evs, s', true) →
        watch_segments base interval (c :: cs) s =
          (evs ++ Event.sleep 5 :: (watch_segments base interval cs s').1,
           (watch_segments base interval cs s').2)) := by
  constructor
  · intro fetch
    simp [watch_segments, watchCycle]
  · intro c segs hpoll evs s' hps
    simp only [watch_segments, watchCycle, hpoll, hps]
    simp

/-- Witness for C5 (amended): a failing poll followed by a successful
empty poll — the loop resumes and performs the second cycle. -/
theorem backoff_resume_witness :
    watch_segments "b" 2
      ({ poll := none, fetch := fun _ _ => none } ::
       [{ poll := some [], fetch := fun _ _ => none }]) 4 =
      ([.sleep 5, .sleep 2], 4) := by
  have h := (backoff_resume "b" 2 [{ poll := some [], fetch := fun _ _ => none }] 4).1
    (fun _ _ => none)
  exact h.trans rfl

/-- Witness for C8 at concrete inputs. -/
theorem segment_seq_extraction_witness :
    parse_segment_seq "noHyphen.ts" = -1 ∧
    parse_segment_seq "x-42z.ts" = -1 ∧
    parse_segment_seq "x-0042.ts" = 42 := by
  refine ⟨segment_seq_extraction.2.1 "noHyphen.ts" (by decide), ?_, ?_⟩
  · have h := segment_seq_extraction.2.2.2.2 "x-42z.ts" "x".data "42z.ts".data
      (by decide) (by decide)
    exact h.trans (by decide)
  · have h := segment_seq_extraction.2.2.2.2 "x-0042.ts" "x".data "0042.ts".data
      (by decide) (by decide)
    exact h.trans (by decide)

/-! ## Lemmas for the watch-loop diff across growing playlists -/

theorem seqsOf_cons (g : Seg) (l : List Seg) :
    seqsOf (g :: l) = if parse_segment_seq g.uri = -1 then seqsOf l
      else parse_segment_seq g.uri :: seqsOf l := by
  simp only [seqsOf, List.map_cons, List.filter_cons]
  by_cases h : parse_segment_seq g.uri = -1
  · simp [h]
  · simp [h]

theorem seqsOf_append (a b : List Seg) : seqsOf (a ++ b) = seqsOf a ++ seqsOf b := by
  simp [seqsOf, List.map_append, List.filter_append]

theorem parsableSegs_append (a b : List Seg) :
    parsableSegs (a ++ b) = parsableSegs a ++ parsableSegs b := by
  simp [parsableSegs, List.filter_append]

theorem getLastD_cons (a : Int) (l : List Int) (d : Int) :
    (a :: l).getLastD d = l.getLastD a := by
  cases l <;> simp [List.getLastD]

theorem getLastD_append (A B : List Int) (s : Int) :
    (A ++ B).getLastD s = B.getLastD (A.getLastD s) := by
  induction A generalizing s with
  | nil => simp [List.getLastD]
  | cons a A' ih =>
    rw [List.cons_append, getLastD_cons, getLastD_cons, ih]

theorem cons_getLast? (s : Int) (A : List Int) :
    (s :: A).getLast? = some (A.getLastD s) := by
  induction A generalizing s with
  | nil => simp [List.getLastD]
  | cons a A' ih =>
    rw [List.getLast?_cons_cons, ih, getLastD_cons]

theorem chain_le_getLastD :
    ∀ (l : List Int) (s : Int), List.Chain' (· < ·) (s :: l) →
    (∀ q ∈ l, q ≤ l.getLastD s) ∧ s ≤ l.getLastD s := by
  intro l
  induction l with
  | nil =>
    intro s _
    exact ⟨by simp, le_refl s⟩
  | cons a l' ih =>
    intro s hch
    obtain ⟨hsa, hch'⟩ := List.chain'_cons.mp hch
    obtain ⟨hall, hle⟩ := ih a hch'
    rw [getLastD_cons]
    refine ⟨?_, le_trans (le_of_lt hsa) hle⟩
    intro q hq
    rcases List.mem_cons.mp hq with he | hm
    · rw [he]; exact hle
    · exact hall q hm

theorem deliveredUris_append (a b : List Event) :
    deliveredUris (a ++ b) = deliveredUris a ++ deliveredUris b := by
  simp [deliveredUris, List.filterMap_append]

theorem deliveredUris_deliverTrace (g : String → Nat) (base : String) (l : List Seg) :
    deliveredUris (deliverTrace g base l) = (parsableSegs l).map Seg.uri := by
  induction l with
  | nil => rfl
  | cons sg l' ih =>
    simp only [deliverTrace, List.flatMap_cons] at ih ⊢
    by_cases h : parse_segment_seq sg.uri = -1
    · rw [if_pos h]
      simp only [List.nil_append]
      rw [ih]
      simp [parsableSegs, List.filter_cons, h]
    · rw [if_neg h]
      rw [deliveredUris_append, ih]
      simp [parsableSegs, List.filter_cons, h, deliveredUris]

theorem processSegments_skip (fetch : Fetch) (base : String) :
    ∀ (l rest : List Seg) (s : Int), (∀ q ∈ seqsOf l, q ≤ s) →
    processSegments fetch base (l ++ rest) s = processSegments fetch base rest s := by
  intro l
  induction l with
  | nil => intro rest s _; rfl
  | cons sg l' ih =>
    intro rest s hle
    have hq : parse_segment_seq sg.uri = -1 ∨ parse_segment_seq sg.uri ≤ s := by
      by_cases h : parse_segment_seq sg.uri = -1
      · exact Or.inl h
      · refine Or.inr (hle _ ?_)
        rw [seqsOf_cons, if_neg h]
        exact List.mem_cons_self _ _
    rw [List.cons_append]
    have hskip : processSegments fetch base (sg :: (l' ++ rest)) s =
        processSegments fetch base (l' ++ rest) s := by
      simp only [processSegments]
      rw [if_pos hq]
    rw [hskip]
    refine ih rest s ?_
    intro q hq'
    refine hle q ?_
    rw [seqsOf_cons]
    by_cases h : parse_segment_seq sg.uri = -1
    · rw [if_pos h]; exact hq'
    · rw [if_neg h]; exact List.mem_cons_of_mem _ hq'

theorem processSegments_cons_accept {fetch : Fetch} {base : String} {sg : Seg}
    {rest : List Seg} {s : Int} {evs : List Event} {b : Nat}
    (hcond : ¬(parse_segment_seq sg.uri = -1 ∨ parse_segment_seq sg.uri ≤ s))
    (hfr : fetchRetry fetch (urljoin base sg.uri) = (evs, some b)) :
    processSegments fetch base (sg :: rest) s =
      (evs ++ Event.deliver sg.uri b sg.duration ::
        (processSegments fetch base rest (parse_segment_seq sg.uri)).1,
       (processSegments fetch base rest (parse_segment_seq sg.uri)).2) := by
  simp only [processSegments]
  rw [if_neg hcond, hfr]

theorem processSegments_all_new (fetch : Fetch) (g : String → Nat) (base : String)
    (hf : ∀ u, fetch u 0 = some (g u)) :
    ∀ (l : List Seg) (s : Int), List.Chain' (· < ·) (s :: seqsOf l) →
    processSegments fetch base l s =
      (deliverTrace g base l, (seqsOf l).getLastD s, false) := by
  intro l
  induction l with
  | nil =>
    intro s _
    simp [processSegments, deliverTrace, seqsOf, List.getLastD]
  | cons sg l' ih =>
    intro s hch
    rw [seqsOf_cons] at hch
    by_cases hq : parse_segment_seq sg.uri = -1
    · rw [if_pos hq] at hch
      have hskip : processSegments fetch base (sg :: l') s =
          processSegments fetch base l' s := by
        simp only [processSegments]
        rw [if_pos (Or.inl hq)]
      rw [hskip, ih s hch, seqsOf_cons, if_pos hq]
      simp [deliverTrace, List.flatMap_cons, hq]
    · rw [if_neg hq] at hch
      obtain ⟨hsq, hch'⟩ := List.chain'_cons.mp hch
      have hcond : ¬(parse_segment_seq sg.uri = -1 ∨ parse_segment_seq sg.uri ≤ s) := by
        rintro (h | h)
        · exact hq h
        · omega
      have hfr : fetchRetry fetch (urljoin base sg.uri) =
          ([.attempt (urljoin base sg.uri) 0], some (g (urljoin base sg.uri))) := by
        simp [fetchRetry, hf]
      rw [processSegments_cons_accept hcond hfr, ih _ hch', seqsOf_cons, if_neg hq,
        getLastD_cons]
      simp [deliverTrace, List.flatMap_cons, hq]

/-- The run over cycles with list-extending playlists: from a state that
dominates every already-seen sequence number, every parsable segment of
the newly appended suffixes is delivered exactly once and the final
state is the last parsable sequence number. -/
theorem watch_growing {fetch : Fetch} {g : String → Nat} (base : String) (interval : ℚ)
    (hf : ∀ u, fetch u 0 = some (g u)) :
    ∀ (ds : List (List Seg)) (acc : List Seg) (s : Int),
    (∀ q ∈ seqsOf acc, q ≤ s) →
    List.Chain' (· < ·) (s :: seqsOf ds.flatten) →
    deliveredUris (watch_segments base interval (growingCycles fetch acc ds) s).1 =
      (parsableSegs ds.flatten).map Seg.uri ∧
    (watch_segments base interval (growingCycles fetch acc ds) s).2 =
      (seqsOf ds.flatten).getLastD s := by
  intro ds
  induction ds with
  | nil =>
    intro acc s _ _
    simp [growingCycles, watch_segments, seqsOf, parsableSegs, deliveredUris,
      List.getLastD]
  | cons D ds' ih =>
    intro acc s hacc hch
    have hflat : (D :: ds').flatten = D ++ ds'.flatten := List.flatten_cons
    rw [hflat] at hch
    rw [seqsOf_append] at hch
    have hch2 : List.Chain' (· < ·) ((s :: seqsOf D) ++ seqsOf ds'.flatten) := by
      rw [List.cons_append]
      exact hch
    obtain ⟨hchA, hchB, hlink⟩ := List.chain'_append.mp hch2
    have hle := chain_le_getLastD (seqsOf D) s hchA
    have hskip : processSegments fetch base (acc ++ D) s =
        processSegments fetch base D s :=
      processSegments_skip fetch base acc D s hacc
    have hall := processSegments_all_new fetch g base hf D s hchA
    have hcyc : watchCycle base interval { poll := some (acc ++ D), fetch := fetch } s =
        (deliverTrace g base D ++ [Event.sleep interval], (seqsOf D).getLastD s) := by
      simp only [watchCycle]
      rw [hskip, hall]
    have hchB' : List.Chain' (· < ·)
        ((seqsOf D).getLastD s :: seqsOf ds'.flatten) := by
      refine List.chain'_cons'.mpr ⟨?_, hchB⟩
      intro y hy
      refine hlink ((seqsOf D).getLastD s) ?_ y hy
      simp [cons_getLast?]
    have hnext : ∀ q ∈ seqsOf (acc ++ D), q ≤ (seqsOf D).getLastD s := by
      intro q hq
      rw [seqsOf_append] at hq
      rcases List.mem_append.mp hq with h | h
      · exact le_trans (hacc q h) hle.2
      · exact hle.1 q h
    have hrec := ih (acc ++ D) ((seqsOf D).getLastD s) hnext hchB'
    have hcons : growingCycles fetch acc (D :: ds') =
        { poll := some (acc ++ D), fetch := fetch } ::
          growingCycles fetch (acc ++ D) ds' := rfl
    rw [hcons]
    simp only [watch_segments]
    rw [hcyc]
    constructor
    · rw [deliveredUris_append, deliveredUris_append, deliveredUris_deliverTrace,
        hrec.1, hflat, parsableSegs_append, List.map_append]
      simp [deliveredUris]
    · rw [hrec.2, hflat, seqsOf_append, getLastD_append]

/-- C2: across repeated poll cycles whose media playlists grow by list
extension (encoded by the per-cycle increments `ds`), with every
segment fetch succeeding and the parsable sequence numbers strictly
increasing along the full list (all above the initial `last_seq` of
-1), every segment with a parsable sequence number is delivered to the
handler exactly once (the delivered URI list equals the parsable
segment list, position by position) and in strictly increasing sequence
order. -/
theorem diff_monotonicity (base : String) (interval : ℚ) (fetch : Fetch)
    (g : String → Nat) (ds : List (List Seg))
    (hf : ∀ u, fetch u 0 = some (g u))
    (hch : List.Chain' (· < ·) ((-1 : Int) :: seqsOf ds.flatten)) :
    deliveredUris (watch_segments base interval (growingCycles fetch [] ds) (-1)).1 =
      (parsableSegs ds.flatten).map Seg.uri ∧
    List.Chain' (· < ·)
      ((deliveredUris
        (watch_segments base interval (growingCycles fetch [] ds) (-1)).1).map
          parse_segment_seq) := by
  have h := watch_growing base interval hf ds [] (-1) (by simp [seqsOf]) hch
  refine ⟨h.1, ?_⟩
  rw [h.1]
  have hmm : ((parsableSegs ds.flatten).map Seg.uri).map parse_segment_seq =
      seqsOf ds.flatten := by
    rw [List.map_map]
    simp only [seqsOf, parsableSegs]
    rw [List.filter_map]
    rfl
  rw [hmm]
  exact hch.tail

/-- Witness for C2: two cycles, the second extending the first by one
segment; segments 1, 2, 3 are delivered once each, in order. -/
theorem diff_monotonicity_witness :
    deliveredUris (watch_segments "http://h/" 1
      (growingCycles (fun _ _ => some 0) []
        [[⟨"segment-1.ts", 2⟩, ⟨"segment-2.ts", 2⟩], [⟨"segment-3.ts", 2⟩]])
      (-1)).1 = ["segment-1.ts", "segment-2.ts", "segment-3.ts"] := by
  have h := diff_monotonicity "http://h/" 1 (fun _ _ => some 0) (fun _ => 0)
    [[⟨"segment-1.ts", 2⟩, ⟨"segment-2.ts", 2⟩], [⟨"segment-3.ts", 2⟩]]
    (fun _ => rfl)
    (by
      have hs : seqsOf ([[⟨"segment-1.ts", 2⟩, ⟨"segment-2.ts", 2⟩],
          [⟨"segment-3.ts", 2⟩]] : List (List Seg)).flatten = [1, 2, 3] := by decide
      rw [hs]
      norm_num [List.chain'_cons, List.chain'_singleton])
  exact h.1.trans (by decide)

end StreamCap
